import Mathlib

/-!
Verification of the chunked file-transfer pipeline in src/filesharetest.py.

Bytes are modelled as natural numbers below 256 in a List Nat, and Python
strings as List Char.  The helpers compress_and_encode, chunk_text and
send_file_to_firestore are embedded from the source; the zlib and base64
library calls they make are modelled executably below (see the doc comments
of zlib_compress, zlib_decompress, b64encode and b64decode), and Firestore
writes are modelled as an explicit trace of write events.
-/

namespace FileShare

/-! ## Python primitives used by the source -/

/-- Effective position of the Python slice bound b on a text of length n:
a negative bound counts from the end, and bounds are clamped to the text. -/
def sliceIdx (n : Nat) (b : Int) : Nat :=
  (if b < 0 then max ((n : Int) + b) 0 else min b (n : Int)).toNat

/-- Python slicing text[i:j] (step 1) on a list of characters: the slice is
empty when the effective start is not below the effective stop. -/
def pySlice (text : List Char) (i j : Int) : List Char :=
  (text.drop (sliceIdx text.length i)).take
    (sliceIdx text.length j - sliceIdx text.length i)

/-- Python range(0, stop, step) for a natural stop (the length of the text
being chunked): step = 0 raises ValueError (modelled as none); a negative
step yields an empty range because stop is not below the start 0; a positive
step s yields 0, s, 2s, ... below stop, which has ceil(stop / s) elements. -/
def pyRange (stop : Nat) (step : Int) : Option (List Int) :=
  if step = 0 then none
  else if 0 < step then
    some ((List.range ((stop + step.toNat - 1) / step.toNat)).map (fun (k : Nat) => (k : Int) * step))
  else some []

/-- Embeds chunk_text from src/filesharetest.py, lines 55-57:
return [text[i:i+chunk_size] for i in range(0, len(text), chunk_size)].
The result is none when the list comprehension raises (zero step). -/
def chunk_text (text : List Char) (chunk_size : Int) : Option (List (List Char)) :=
  (pyRange text.length chunk_size).map
    (fun idxs => idxs.map (fun i => pySlice text i (i + chunk_size)))

/-- Chunking with a positive natural chunk size, in the closed form used by
the proofs: ceil(len / c) slices of c characters each, the last possibly
shorter.  chunk_text_pos shows chunk_text computes exactly this. -/
def ceilChunks (text : List Char) (c : Nat) : List (List Char) :=
  (List.range ((text.length + c - 1) / c)).map (fun k => (text.drop (k * c)).take c)

/-! ## base64 (RFC 4648, standard alphabet with padding)

Models the base64.b64encode call in compress_and_encode and the
base64.b64decode step of the receiver described by the spec; neither is
repository code, so they are embedded from the standard base64 definition.
The encoder processes bytes three at a time and pads with the character =,
exactly as the Python library does for well-formed byte input. -/

/-- Character of a six-bit group, per the standard base64 alphabet. -/
def encChar (n : Nat) : Char :=
  Char.ofNat
    (if n < 26 then 65 + n
     else if n < 52 then 97 + (n - 26)
     else if n < 62 then 48 + (n - 52)
     else if n = 62 then 43
     else 47)

/-- Six-bit value of a base64 alphabet character; none for a character
outside the alphabet (including the padding character). -/
def decChar (c : Char) : Option Nat :=
  let v := c.toNat
  if 65 ≤ v ∧ v ≤ 90 then some (v - 65)
  else if 97 ≤ v ∧ v ≤ 122 then some (v - 97 + 26)
  else if 48 ≤ v ∧ v ≤ 57 then some (v - 48 + 52)
  else if v = 43 then some 62
  else if v = 47 then some 63
  else none

/-- base64 encoding of a byte list (values below 256). -/
def b64encode : List Nat → List Char
  | [] => []
  | [a] => [encChar (a / 4), encChar (a % 4 * 16), '=', '=']
  | [a, b] => [encChar (a / 4), encChar (a % 4 * 16 + b / 16), encChar (b % 16 * 4), '=']
  | a :: b :: c :: rest =>
      encChar (a / 4) :: encChar (a % 4 * 16 + b / 16) ::
      encChar (b % 16 * 4 + c / 64) :: encChar (c % 64) :: b64encode rest

/-- base64 decoding of a padded base64 text; none on malformed input. -/
def b64decode : List Char → Option (List Nat)
  | [] => some []
  | c1 :: c2 :: c3 :: c4 :: rest =>
      match decChar c1, decChar c2 with
      | some v1, some v2 =>
        if c3 = '=' ∧ c4 = '=' ∧ rest = [] then some [v1 * 4 + v2 / 16]
        else
          match decChar c3 with
          | some v3 =>
            if c4 = '=' ∧ rest = [] then some [v1 * 4 + v2 / 16, v2 % 16 * 16 + v3 / 4]
            else
              match decChar c4 with
              | some v4 =>
                (b64decode rest).map
                  (fun ds => (v1 * 4 + v2 / 16) :: (v2 % 16 * 16 + v3 / 4) :: (v3 % 4 * 64 + v4) :: ds)
              | none => none
          | none => none
      | _, _ => none
  | _ => none

/-! ## zlib (RFC 1950 framing around a DEFLATE stream, RFC 1951)

The source calls zlib.compress(file_bytes, level=9); the zlib library is not
repository code, so it is modelled here executably: a 0x78 0xDA header, one
final DEFLATE block coding every input byte as a fixed-Huffman literal, and a
big-endian Adler-32 trailer.  This is a valid zlib stream for every input and
it coincides byte for byte with the CPython output on inputs in which deflate
finds no back-reference (in particular on all the concrete inputs evaluated
below: zlib.compress of the empty byte string is 8 bytes, of a single byte 9
bytes).  zlib_decompress models the inverse direction, which the spec
requires of the receiver; it parses exactly such streams and checks the
Adler-32 trailer. -/

/-- Most-significant-bit-first bit list of the w-bit value n, as a Huffman
code is transmitted in a DEFLATE stream. -/
def natToBitsMSB : Nat → Nat → List Bool
  | 0, _ => []
  | w + 1, n => natToBitsMSB w (n / 2) ++ [n % 2 == 1]

/-- Value of a most-significant-bit-first bit list. -/
def bitsVal (l : List Bool) : Nat :=
  l.foldl (fun a b => 2 * a + Bool.toNat b) 0

/-- Fixed-Huffman code of a literal byte: code 0x30 + n in 8 bits for
n below 144, code 0x190 + (n - 144) in 9 bits otherwise (RFC 1951, 3.2.6). -/
def litCode (n : Nat) : List Bool :=
  if n ≤ 143 then natToBitsMSB 8 (48 + n) else natToBitsMSB 9 (400 + (n - 144))

/-- Bit stream of the single DEFLATE block emitted for the whole input:
header bits BFINAL=1, BTYPE=01 (fixed Huffman), every byte as a literal,
then the end-of-block code 0000000. -/
def deflateBits (data : List Nat) : List Bool :=
  true :: true :: false :: (data.flatMap litCode ++ List.replicate 7 false)

/-- Byte value of up to eight bits in least-significant-first order, the
DEFLATE bit packing order. -/
def byteOfBits (l : List Bool) : Nat :=
  (l.take 8).foldr (fun b acc => Bool.toNat b + 2 * acc) 0

/-- Packs a bit stream into bytes, eight bits per byte least-significant
first, the final byte zero-padded. -/
def bitsToBytes : List Bool → List Nat
  | [] => []
  | b0 :: b1 :: b2 :: b3 :: b4 :: b5 :: b6 :: b7 :: rest =>
      byteOfBits [b0, b1, b2, b3, b4, b5, b6, b7] :: bitsToBytes rest
  | l => [byteOfBits l]

/-- Eight bits of a byte, least significant first. -/
def bitsOfByte (n : Nat) : List Bool :=
  [n.testBit 0, n.testBit 1, n.testBit 2, n.testBit 3,
   n.testBit 4, n.testBit 5, n.testBit 6, n.testBit 7]

/-- Unpacks bytes into their bit stream, least-significant bit first. -/
def bytesToBits (bs : List Nat) : List Bool :=
  bs.flatMap bitsOfByte

/-- One Adler-32 step: both sums are reduced modulo 65521. -/
def adlerStep (p : Nat × Nat) (x : Nat) : Nat × Nat :=
  ((p.1 + x) % 65521, (p.2 + p.1 + x) % 65521)

/-- Adler-32 checksum of a byte list, starting from (1, 0). -/
def adler32 (data : List Nat) : Nat :=
  let p := data.foldl adlerStep (1, 0)
  p.2 * 65536 + p.1

/-- Big-endian four-byte rendering of a 32-bit value. -/
def be32 (n : Nat) : List Nat :=
  [n / 2 ^ 24 % 256, n / 2 ^ 16 % 256, n / 2 ^ 8 % 256, n % 256]

/-- Models zlib.compress(data, level=9): header bytes 0x78 0xDA, the packed
DEFLATE stream, and the big-endian Adler-32 of the input. -/
def zlib_compress (data : List Nat) : List Nat :=
  120 :: 218 :: (bitsToBytes (deflateBits data) ++ be32 (adler32 data))

/-- Decodes fixed-Huffman symbols most-significant bit first until the
end-of-block code, returning the literal bytes; none on a length or distance
code (never emitted by zlib_compress) or on a truncated stream.  Bits after
the end-of-block code are byte padding and are ignored.  The fuel argument
only drives the recursion; every call below passes more fuel than there are
decodable symbols. -/
def decodeSyms : Nat → List Bool → Option (List Nat)
  | 0, _ => none
  | fuel + 1, bits =>
      if bits.length < 7 then none
      else if bitsVal (bits.take 7) = 0 then some []
      else if bitsVal (bits.take 7) ≤ 23 then none
      else if bits.length < 8 then none
      else if bitsVal (bits.take 8) ≤ 191 then
        Option.map (fun ds => (bitsVal (bits.take 8) - 48) :: ds)
          (decodeSyms fuel (bits.drop 8))
      else if bitsVal (bits.take 8) ≤ 199 then none
      else if bits.length < 9 then none
      else
        Option.map (fun ds => (144 + (bitsVal (bits.take 9) - 400)) :: ds)
          (decodeSyms fuel (bits.drop 9))

/-- Parses the bit stream of one final fixed-Huffman DEFLATE block. -/
def inflate (bits : List Bool) : Option (List Nat) :=
  match bits with
  | true :: true :: false :: rest => decodeSyms (rest.length + 1) rest
  | _ => none

/-- Models the zlib decompression the spec requires of the receiver: checks
the 0x78 0xDA header, inflates the DEFLATE stream, and checks the four-byte
big-endian Adler-32 trailer against the decoded output. -/
def zlib_decompress (bs : List Nat) : Option (List Nat) :=
  match bs with
  | 120 :: 218 :: rest =>
      if rest.length < 4 then none
      else
        match inflate (bytesToBits (rest.take (rest.length - 4))) with
        | some data =>
            if rest.drop (rest.length - 4) = be32 (adler32 data) then some data else none
        | none => none
  | _ => none

/-- Embeds compress_and_encode from src/filesharetest.py, lines 49-53:
zlib-compress at level 9, then base64-encode, decoded to text. -/
def compress_and_encode (file_bytes : List Nat) : List Char :=
  b64encode (zlib_compress file_bytes)

/-! ## Firestore writes as a trace of events

The Firestore client is external; each .set or .update call issued by
send_file_to_firestore is modelled as one event carrying the document path
pieces and the field map it writes.  The uuid.uuid4() value is modelled as
the parameter file_id, since it is external randomness. -/

/-- Field value of a Firestore document in this app: a Python string tag, a
number, or a slice of the encoded text. -/
inductive FieldVal where
  | vStr : String → FieldVal
  | vNat : Nat → FieldVal
  | vText : List Char → FieldVal
deriving DecidableEq

/-- One Firestore write issued by send_file_to_firestore: the metadata
document set at files/file_id, a chunk document set at
files/file_id/chunks/docId, or the metadata update at files/file_id. -/
inductive Event where
  | metaSet : String → List (String × FieldVal) → Event
  | chunkSet : String → String → List (String × FieldVal) → Event
  | metaUpdate : String → List (String × FieldVal) → Event
deriving DecidableEq

/-- Field map of the metadata document set at the start of
send_file_to_firestore (lines 74-78). -/
def metaFields (file_name : String) (total_chunks : Nat) : List (String × FieldVal) :=
  [("file_name", FieldVal.vStr file_name),
   ("total_chunks", FieldVal.vNat total_chunks),
   ("status", FieldVal.vStr "uploading")]

/-- Chunk write of one enumerate step (lines 82-86): document id str(idx)
under subcollection chunks, field map with the single key data. -/
def chunkEvent (file_id : String) (p : Nat × List Char) : Event :=
  Event.chunkSet file_id (Nat.repr p.1) [("data", FieldVal.vText p.2)]

/-- Result of a successful send_file_to_firestore call: the trace of
Firestore writes it issued and the returned pair (file_id, total_chunks). -/
structure SendResult where
  trace : List Event
  ret : String × Nat
deriving DecidableEq

/-- Embeds send_file_to_firestore from src/filesharetest.py, lines 59-95:
compress and encode the bytes, chunk the text, write the metadata document
with status uploading, write one chunk document per chunk in enumerate
order, then update the status to uploaded and return (file_id, total).
none when chunk_text raises.  The progress bar and the sleep are UI and
timing effects with no data content and are not part of the trace. -/
def send_file_to_firestore (file_name : String) (file_bytes : List Nat)
    (chunk_size : Int) (file_id : String) : Option SendResult :=
  (chunk_text (compress_and_encode file_bytes) chunk_size).map
    (fun chunks =>
      { trace := Event.metaSet file_id (metaFields file_name chunks.length)
            :: (chunks.enum.map (chunkEvent file_id)
                ++ [Event.metaUpdate file_id [("status", FieldVal.vStr "uploaded")]]),
        ret := (file_id, chunks.length) })

/-- Trace of the writes issued when the chunk write of index f raises inside
the loop of send_file_to_firestore: the metadata set and the f chunk writes
before it succeed, the exception propagates, and no further write (in
particular no status update) is issued.  none when f is not the index of a
chunk or when chunk_text itself raises. -/
def sendFailTrace (file_name : String) (file_bytes : List Nat)
    (chunk_size : Int) (file_id : String) (f : Nat) : Option (List Event) :=
  (chunk_text (compress_and_encode file_bytes) chunk_size).bind
    (fun chunks =>
      if f < chunks.length then
        some (Event.metaSet file_id (metaFields file_name chunks.length)
              :: ((chunks.take f).enum.map (chunkEvent file_id)))
      else none)

/-! ## Trace observers -/

/-- Values written to the status field by one event. -/
def eventStatus : Event → List FieldVal
  | Event.metaSet _ fs => (fs.filter (fun p => p.1 = "status")).map Prod.snd
  | Event.metaUpdate _ fs => (fs.filter (fun p => p.1 = "status")).map Prod.snd
  | Event.chunkSet _ _ _ => []

/-- Values written to the status field along a trace, in write order. -/
def statusValues (tr : List Event) : List FieldVal :=
  tr.flatMap eventStatus

/-- Whether an event is a chunk document write. -/
def isChunkSet : Event → Bool
  | Event.chunkSet _ _ _ => true
  | _ => false

/-- Whether an event is a metadata update. -/
def isMetaUpdate : Event → Bool
  | Event.metaUpdate _ _ => true
  | _ => false

/-- Document ids of the chunk writes of a trace, in write order. -/
def chunkIds (tr : List Event) : List String :=
  tr.flatMap (fun e => match e with
    | Event.chunkSet _ i _ => [i]
    | _ => [])

/-- Field-name lists of the chunk writes of a trace, in write order. -/
def chunkKeyLists (tr : List Event) : List (List String) :=
  tr.flatMap (fun e => match e with
    | Event.chunkSet _ _ fs => [fs.map Prod.fst]
    | _ => [])

/-- Field-name lists of the metadata document sets of a trace. -/
def metaKeyLists (tr : List Event) : List (List String) :=
  tr.flatMap (fun e => match e with
    | Event.metaSet _ fs => [fs.map Prod.fst]
    | _ => [])

/-- Values written to the total_chunks field by metadata document sets. -/
def metaTotalValues (tr : List Event) : List FieldVal :=
  tr.flatMap (fun e => match e with
    | Event.metaSet _ fs => (fs.filter (fun p => p.1 = "total_chunks")).map Prod.snd
    | _ => [])

/-! ## Trace computation lemmas -/

theorem statusValues_cons (e : Event) (tr : List Event) :
    statusValues (e :: tr) = eventStatus e ++ statusValues tr := by
  simp [statusValues]

theorem statusValues_append (a b : List Event) :
    statusValues (a ++ b) = statusValues a ++ statusValues b := by
  simp [statusValues]

theorem statusValues_chunkEvents (fid : String) (ps : List (Nat × List Char)) :
    statusValues (ps.map (chunkEvent fid)) = [] := by
  induction ps with
  | nil => rfl
  | cons p ps ih => rw [List.map_cons, statusValues_cons, ih]; rfl

theorem chunkIds_map (fid : String) (ps : List (Nat × List Char)) :
    chunkIds (ps.map (chunkEvent fid)) = ps.map (fun p => Nat.repr p.1) := by
  unfold chunkIds
  induction ps with
  | nil => rfl
  | cons p ps ih => rw [List.map_cons, List.flatMap_cons, ih]; rfl

theorem chunkKeyLists_map (fid : String) (ps : List (Nat × List Char)) :
    chunkKeyLists (ps.map (chunkEvent fid)) = List.replicate ps.length ["data"] := by
  unfold chunkKeyLists
  induction ps with
  | nil => rfl
  | cons p ps ih =>
    rw [List.map_cons, List.flatMap_cons, ih, List.length_cons, List.replicate_succ]
    rfl

theorem metaKeyLists_chunkEvents (fid : String) (ps : List (Nat × List Char)) :
    metaKeyLists (ps.map (chunkEvent fid)) = [] := by
  unfold metaKeyLists
  induction ps with
  | nil => rfl
  | cons p ps ih => rw [List.map_cons, List.flatMap_cons, ih]; rfl

theorem metaTotalValues_chunkEvents (fid : String) (ps : List (Nat × List Char)) :
    metaTotalValues (ps.map (chunkEvent fid)) = [] := by
  unfold metaTotalValues
  induction ps with
  | nil => rfl
  | cons p ps ih => rw [List.map_cons, List.flatMap_cons, ih]; rfl

/-! ## Chunking lemmas -/

theorem chunk_text_zero (text : List Char) : chunk_text text 0 = none := by
  simp [chunk_text, pyRange]

theorem chunk_text_neg (text : List Char) (cs : Int) (h : cs < 0) :
    chunk_text text cs = some [] := by
  unfold chunk_text pyRange
  rw [if_neg (by omega), if_neg (by omega)]
  rfl

/-- Multiples of c below the ceiling count stay below L. -/
theorem lt_of_lt_ceilDiv (L c k : Nat) (hc : 0 < c) (hk : k < (L + c - 1) / c) :
    k * c < L := by
  rw [Nat.mul_comm]
  have hdm := Nat.div_add_mod (L + c - 1) c
  have hmlt := Nat.mod_lt (L + c - 1) hc
  have h1 : c * (k + 1) ≤ c * ((L + c - 1) / c) := Nat.mul_le_mul_left c hk
  rw [Nat.mul_add, Nat.mul_one] at h1
  generalize hm : c * ((L + c - 1) / c) = m at h1 hdm
  generalize hr : (L + c - 1) % c = r at hdm hmlt
  generalize hp : c * k = p at h1 ⊢
  omega

theorem sliceIdx_nat (n i : Nat) : sliceIdx n (i : Int) = min i n := by
  unfold sliceIdx
  rw [if_neg (by omega)]
  omega

/-- Inside the range produced by chunk_text, a Python slice of c characters
at a natural position is drop-then-take. -/
theorem pySlice_chunk (text : List Char) (i c : Nat) (hi : i ≤ text.length) :
    pySlice text (i : Int) ((i : Int) + (c : Int)) = (text.drop i).take c := by
  unfold pySlice
  have e1 : sliceIdx text.length (i : Int) = i := by
    rw [sliceIdx_nat]; omega
  have e2 : sliceIdx text.length ((i : Int) + (c : Int)) = min (i + c) text.length := by
    rw [show (i : Int) + (c : Int) = ((i + c : Nat) : Int) from by omega, sliceIdx_nat]
  rw [e1, e2, List.take_eq_take]
  simp only [List.length_take, List.length_drop]
  omega

/-- chunk_text with a positive chunk size computes ceilChunks. -/
theorem chunk_text_pos (text : List Char) (c : Nat) (hc : 0 < c) :
    chunk_text text (c : Int) = some (ceilChunks text c) := by
  unfold chunk_text pyRange ceilChunks
  rw [if_neg (by omega), if_pos (by omega)]
  rw [show ((c : Int)).toNat = c from by omega]
  simp only [Option.map_some']
  congr 1
  rw [List.map_map]
  refine List.map_congr_left ?_
  intro k hk
  rw [List.mem_range] at hk
  have hkc : k * c < text.length := lt_of_lt_ceilDiv text.length c k hc hk
  show pySlice text ((k : Int) * (c : Int)) ((k : Int) * (c : Int) + (c : Int)) = _
  rw [show (k : Int) * (c : Int) = ((k * c : Nat) : Int) from by push_cast; ring]
  exact pySlice_chunk text (k * c) c (Nat.le_of_lt hkc)

theorem ceilChunks_length (text : List Char) (c : Nat) :
    (ceilChunks text c).length = (text.length + c - 1) / c := by
  simp [ceilChunks]

theorem ceilChunks_get (text : List Char) (c i : Nat)
    (h : i < (ceilChunks text c).length) :
    (ceilChunks text c).get ⟨i, h⟩ = (text.drop (i * c)).take c := by
  simp [ceilChunks]

theorem ceilChunks_nil (c : Nat) (hc : 0 < c) : ceilChunks [] c = [] := by
  unfold ceilChunks
  rw [show ([] : List Char).length = 0 from rfl, Nat.div_eq_of_lt (by omega)]
  rfl

/-- Unfolding step of ceilChunks on a non-empty text. -/
theorem ceilChunks_cons (text : List Char) (c : Nat) (hc : 0 < c) (ht : text ≠ []) :
    ceilChunks text c = text.take c :: ceilChunks (text.drop c) c := by
  have hL : 0 < text.length := List.length_pos.mpr ht
  unfold ceilChunks
  have hn : (text.length + c - 1) / c = ((text.drop c).length + c - 1) / c + 1 := by
    rw [List.length_drop]
    rcases Nat.le_total text.length c with h | h
    · have hrhs : (text.length - c + c - 1) / c = 0 := by
        rw [show text.length - c + c - 1 = c - 1 from by omega,
          Nat.div_eq_of_lt (by omega)]
      have hlhs : (text.length + c - 1) / c = 1 := by
        rw [show text.length + c - 1 = (text.length - 1) + c from by omega,
          Nat.add_div_right _ hc, Nat.div_eq_of_lt (by omega)]
      rw [hlhs, hrhs]
    · rw [show text.length - c + c - 1 = text.length - 1 from by omega,
        show text.length + c - 1 = (text.length - 1) + c from by omega,
        Nat.add_div_right _ hc]
  rw [hn, List.range_succ_eq_map, List.map_cons, List.map_map]
  congr 1
  · rw [Nat.zero_mul, List.drop_zero]
  · refine List.map_congr_left ?_
    intro k hk
    show (text.drop (Nat.succ k * c)).take c = _
    rw [List.drop_drop, Nat.succ_mul]
    congr 2
    omega

/-! ## base64 lemmas -/

theorem decChar_encChar : ∀ n : Nat, n < 64 → decChar (encChar n) = some n := by
  decide

theorem encChar_ne_pad : ∀ n : Nat, n < 64 → encChar n ≠ '=' := by
  decide

/-- Decoding inverts encoding on byte lists. -/
theorem b64decode_encode (bs : List Nat) (h : ∀ x ∈ bs, x < 256) :
    b64decode (b64encode bs) = some bs := by
  induction bs using b64encode.induct with
  | case1 => rfl
  | case2 a =>
    have ha : a < 256 := h a (by simp)
    rw [b64encode, b64decode,
      decChar_encChar _ (by omega), decChar_encChar _ (by omega)]
    simp only [eq_self_iff_true, and_self, if_true, Option.some.injEq,
      List.cons.injEq, and_true]
    omega
  | case3 a b =>
    have ha : a < 256 := h a (by simp)
    have hb : b < 256 := h b (by simp)
    rw [b64encode, b64decode,
      decChar_encChar _ (by omega), decChar_encChar _ (by omega),
      decChar_encChar _ (by omega)]
    simp only [Option.some.injEq]
    rw [if_neg (fun hcon => encChar_ne_pad _ (by omega) hcon.1)]
    simp only [eq_self_iff_true, and_self, if_true, Option.some.injEq,
      List.cons.injEq, and_true]
    refine And.intro (by omega) (by omega)
  | case4 a b c rest ih =>
    have ha : a < 256 := h a (by simp)
    have hb : b < 256 := h b (by simp)
    have hc : c < 256 := h c (by simp)
    have hrest : ∀ x ∈ rest, x < 256 := fun x hx => h x (by simp [hx])
    rw [b64encode, b64decode,
      decChar_encChar _ (by omega), decChar_encChar _ (by omega),
      decChar_encChar _ (by omega), decChar_encChar _ (by omega)]
    simp only [Option.some.injEq]
    rw [if_neg (fun hcon => encChar_ne_pad _ (by omega) hcon.1)]
    rw [if_neg (fun hcon => encChar_ne_pad _ (by omega) hcon.1)]
    rw [ih hrest]
    simp only [Option.map_some', Option.some.injEq, List.cons.injEq]
    refine And.intro (by omega) (And.intro (by omega) (And.intro (by omega) trivial))

/-- Length of the base64 encoding: four characters per three-byte group. -/
theorem b64encode_length (bs : List Nat) :
    (b64encode bs).length = 4 * ((bs.length + 2) / 3) := by
  induction bs using b64encode.induct with
  | case1 => rfl
  | case2 a => simp [b64encode]
  | case3 a b => simp [b64encode]
  | case4 a b c rest ih =>
    rw [b64encode]
    simp only [List.length_cons, ih]
    omega

/-! ## Bit-level lemmas for the zlib model -/

theorem natToBitsMSB_length (w n : Nat) : (natToBitsMSB w n).length = w := by
  induction w generalizing n with
  | zero => rfl
  | succ w ih => simp [natToBitsMSB, ih]

theorem take_append_of_length {α : Type} (l m : List α) (k : Nat) (h : l.length = k) :
    (l ++ m).take k = l := by
  subst h
  exact List.take_left l m

theorem drop_append_of_length {α : Type} (l m : List α) (k : Nat) (h : l.length = k) :
    (l ++ m).drop k = m := by
  subst h
  exact List.drop_left l m

theorem bitsVal_append_bit (l : List Bool) (b : Bool) :
    bitsVal (l ++ [b]) = 2 * bitsVal l + Bool.toNat b := by
  unfold bitsVal
  rw [List.foldl_append]
  rfl

theorem bitsVal_natToBitsMSB (w n : Nat) (h : n < 2 ^ w) :
    bitsVal (natToBitsMSB w n) = n := by
  induction w generalizing n with
  | zero =>
    have : n = 0 := by simpa using h
    simp [this, natToBitsMSB, bitsVal]
  | succ w ih =>
    have hpow : 2 ^ (w + 1) = 2 * 2 ^ w := by rw [Nat.pow_succ]; ring
    have hlt : n / 2 < 2 ^ w := by omega
    show bitsVal (natToBitsMSB w (n / 2) ++ [n % 2 == 1]) = n
    rw [bitsVal_append_bit, ih (n / 2) hlt]
    rcases Nat.mod_two_eq_zero_or_one n with h2 | h2 <;> rw [h2] <;> simp <;> omega

theorem litCode_length_ge (n : Nat) : 8 ≤ (litCode n).length := by
  unfold litCode
  by_cases h : n ≤ 143 <;> simp [h, natToBitsMSB_length]

theorem flatMap_litCode_length (data : List Nat) :
    8 * data.length ≤ (data.flatMap litCode).length := by
  induction data with
  | nil => simp
  | cons c cs ih =>
    rw [List.flatMap_cons, List.length_append, List.length_cons]
    have := litCode_length_ge c
    omega

/-- Inversion of the fixed-Huffman literal decoder on encoder output: any
padding after the end-of-block code is ignored. -/
theorem decodeSyms_litCode (data : List Nat) : ∀ (rest : List Bool) (fuel : Nat),
    (∀ x ∈ data, x < 256) → data.length < fuel →
    decodeSyms fuel (data.flatMap litCode ++ (List.replicate 7 false ++ rest)) =
      some data := by
  induction data with
  | nil =>
    intro rest fuel _ hf
    cases fuel with
    | zero => omega
    | succ f =>
      rw [List.flatMap_nil, List.nil_append]
      have hlen : (List.replicate 7 false ++ rest).length = 7 + rest.length := by
        rw [List.length_append, List.length_replicate]
      have htake : (List.replicate 7 false ++ rest).take 7 = List.replicate 7 false :=
        take_append_of_length _ _ 7 (by simp)
      simp only [decodeSyms, hlen, htake]
      rw [if_neg (by omega), if_pos (by decide)]
  | cons c cs ih =>
    intro rest fuel hb hf
    cases fuel with
    | zero => omega
    | succ f =>
      have hc : c < 256 := hb c (by simp)
      have hcs : ∀ x ∈ cs, x < 256 := fun x hx => hb x (by simp [hx])
      rw [List.flatMap_cons, List.append_assoc]
      by_cases hsmall : c ≤ 143
      · rw [litCode, if_pos hsmall]
        have hsplit : natToBitsMSB 8 (48 + c) =
            natToBitsMSB 7 ((48 + c) / 2) ++ [(48 + c) % 2 == 1] := rfl
        have hlen : (natToBitsMSB 8 (48 + c) ++
            (cs.flatMap litCode ++ (List.replicate 7 false ++ rest))).length =
            8 + (cs.flatMap litCode ++ (List.replicate 7 false ++ rest)).length := by
          rw [List.length_append, natToBitsMSB_length]
        have htake7 : (natToBitsMSB 8 (48 + c) ++
            (cs.flatMap litCode ++ (List.replicate 7 false ++ rest))).take 7 =
            natToBitsMSB 7 ((48 + c) / 2) := by
          rw [hsplit, List.append_assoc]
          exact take_append_of_length _ _ 7 (natToBitsMSB_length 7 _)
        have htake8 : (natToBitsMSB 8 (48 + c) ++
            (cs.flatMap litCode ++ (List.replicate 7 false ++ rest))).take 8 =
            natToBitsMSB 8 (48 + c) :=
          take_append_of_length _ _ 8 (natToBitsMSB_length 8 _)
        have hdrop8 : (natToBitsMSB 8 (48 + c) ++
            (cs.flatMap litCode ++ (List.replicate 7 false ++ rest))).drop 8 =
            cs.flatMap litCode ++ (List.replicate 7 false ++ rest) :=
          drop_append_of_length _ _ 8 (natToBitsMSB_length 8 _)
        have hv7 : bitsVal (natToBitsMSB 7 ((48 + c) / 2)) = (48 + c) / 2 :=
          bitsVal_natToBitsMSB 7 _ (by omega)
        have hv8 : bitsVal (natToBitsMSB 8 (48 + c)) = 48 + c :=
          bitsVal_natToBitsMSB 8 _ (by omega)
        simp only [decodeSyms, hlen, htake7, htake8, hdrop8, hv7, hv8]
        rw [if_neg (by omega), if_neg (by omega), if_neg (by omega),
          if_neg (by omega), if_pos (by omega)]
        rw [ih rest f hcs (by simpa using Nat.lt_of_succ_lt_succ hf)]
        simp only [Option.map_some', Option.some.injEq, List.cons.injEq]
        exact And.intro (by omega) trivial
      · rw [litCode, if_neg hsmall]
        have hc144 : 144 ≤ c := by omega
        have hsplit9 : natToBitsMSB 9 (400 + (c - 144)) =
            natToBitsMSB 8 ((400 + (c - 144)) / 2) ++ [(400 + (c - 144)) % 2 == 1] := rfl
        have hsplit8 : natToBitsMSB 8 ((400 + (c - 144)) / 2) =
            natToBitsMSB 7 ((400 + (c - 144)) / 2 / 2) ++
              [(400 + (c - 144)) / 2 % 2 == 1] := rfl
        have hlen : (natToBitsMSB 9 (400 + (c - 144)) ++
            (cs.flatMap litCode ++ (List.replicate 7 false ++ rest))).length =
            9 + (cs.flatMap litCode ++ (List.replicate 7 false ++ rest)).length := by
          rw [List.length_append, natToBitsMSB_length]
        have htake7 : (natToBitsMSB 9 (400 + (c - 144)) ++
            (cs.flatMap litCode ++ (List.replicate 7 false ++ rest))).take 7 =
            natToBitsMSB 7 ((400 + (c - 144)) / 2 / 2) := by
          rw [hsplit9, hsplit8, List.append_assoc, List.append_assoc]
          exact take_append_of_length _ _ 7 (natToBitsMSB_length 7 _)
        have htake8 : (natToBitsMSB 9 (400 + (c - 144)) ++
            (cs.flatMap litCode ++ (List.replicate 7 false ++ rest))).take 8 =
            natToBitsMSB 8 ((400 + (c - 144)) / 2) := by
          rw [hsplit9, List.append_assoc]
          exact take_append_of_length _ _ 8 (natToBitsMSB_length 8 _)
        have htake9 : (natToBitsMSB 9 (400 + (c - 144)) ++
            (cs.flatMap litCode ++ (List.replicate 7 false ++ rest))).take 9 =
            natToBitsMSB 9 (400 + (c - 144)) :=
          take_append_of_length _ _ 9 (natToBitsMSB_length 9 _)
        have hdrop9 : (natToBitsMSB 9 (400 + (c - 144)) ++
            (cs.flatMap litCode ++ (List.replicate 7 false ++ rest))).drop 9 =
            cs.flatMap litCode ++ (List.replicate 7 false ++ rest) :=
          drop_append_of_length _ _ 9 (natToBitsMSB_length 9 _)
        have hv7 : bitsVal (natToBitsMSB 7 ((400 + (c - 144)) / 2 / 2)) =
            (400 + (c - 144)) / 2 / 2 :=
          bitsVal_natToBitsMSB 7 _ (by omega)
        have hv8 : bitsVal (natToBitsMSB 8 ((400 + (c - 144)) / 2)) =
            (400 + (c - 144)) / 2 :=
          bitsVal_natToBitsMSB 8 _ (by omega)
        have hv9 : bitsVal (natToBitsMSB 9 (400 + (c - 144))) = 400 + (c - 144) :=
          bitsVal_natToBitsMSB 9 _ (by omega)
        simp only [decodeSyms, hlen, htake7, htake8, htake9, hdrop9, hv7, hv8, hv9]
        rw [if_neg (by omega), if_neg (by omega), if_neg (by omega),
          if_neg (by omega), if_neg (by omega), if_neg (by omega), if_neg (by omega)]
        rw [ih rest f hcs (by simpa using Nat.lt_of_succ_lt_succ hf)]
        simp only [Option.map_some', Option.some.injEq, List.cons.injEq]
        exact And.intro (by omega) trivial

theorem bitsOfByte_byteOfBits :
    ∀ b0 b1 b2 b3 b4 b5 b6 b7 : Bool,
      bitsOfByte (byteOfBits [b0, b1, b2, b3, b4, b5, b6, b7]) =
        [b0, b1, b2, b3, b4, b5, b6, b7] := by
  decide

/-- Unpacking after packing recovers the bit stream up to zero padding. -/
theorem bytesToBits_bitsToBytes (bits : List Bool) :
    ∃ k, bytesToBits (bitsToBytes bits) = bits ++ List.replicate k false := by
  have main : ∀ (m : Nat) (l : List Bool), l.length ≤ m →
      ∃ k, bytesToBits (bitsToBytes l) = l ++ List.replicate k false := by
    intro m
    induction m with
    | zero =>
      intro l hl
      rw [List.eq_nil_of_length_eq_zero (Nat.le_zero.mp hl)]
      exact ⟨0, rfl⟩
    | succ m ih =>
      intro l hl
      rcases l with _ | ⟨b0, l⟩
      · exact ⟨0, rfl⟩
      rcases l with _ | ⟨b1, l⟩
      · exact ⟨7, by clear hl; revert b0; decide⟩
      rcases l with _ | ⟨b2, l⟩
      · exact ⟨6, by clear hl; revert b0 b1; decide⟩
      rcases l with _ | ⟨b3, l⟩
      · exact ⟨5, by clear hl; revert b0 b1 b2; decide⟩
      rcases l with _ | ⟨b4, l⟩
      · exact ⟨4, by clear hl; revert b0 b1 b2 b3; decide⟩
      rcases l with _ | ⟨b5, l⟩
      · exact ⟨3, by clear hl; revert b0 b1 b2 b3 b4; decide⟩
      rcases l with _ | ⟨b6, l⟩
      · exact ⟨2, by clear hl; revert b0 b1 b2 b3 b4 b5; decide⟩
      rcases l with _ | ⟨b7, rest⟩
      · exact ⟨1, by clear hl; revert b0 b1 b2 b3 b4 b5 b6; decide⟩
      obtain ⟨k, hk⟩ := ih rest (by simp at hl; omega)
      refine ⟨k, ?_⟩
      show bitsOfByte (byteOfBits [b0, b1, b2, b3, b4, b5, b6, b7]) ++
        bytesToBits (bitsToBytes rest) = _
      rw [bitsOfByte_byteOfBits, hk]
      simp
  exact main bits.length bits (Nat.le_refl _)

theorem foldr_bits_lt (l : List Bool) :
    l.foldr (fun b acc => Bool.toNat b + 2 * acc) 0 < 2 ^ l.length := by
  induction l with
  | nil => simp
  | cons b l ih =>
    simp only [List.foldr_cons, List.length_cons]
    rw [Nat.pow_succ]
    have hb : Bool.toNat b ≤ 1 := by rcases b <;> decide
    generalize (2 : Nat) ^ l.length = t at ih ⊢
    generalize l.foldr (fun b acc => Bool.toNat b + 2 * acc) 0 = a at ih ⊢
    omega

theorem byteOfBits_lt (l : List Bool) : byteOfBits l < 256 := by
  have h := foldr_bits_lt (l.take 8)
  have hlen : (l.take 8).length ≤ 8 := by
    rw [List.length_take]; omega
  have hp : (2 : Nat) ^ (l.take 8).length ≤ 2 ^ 8 := Nat.pow_le_pow_right (by omega) hlen
  unfold byteOfBits
  omega

theorem bitsToBytes_lt (bits : List Bool) : ∀ x ∈ bitsToBytes bits, x < 256 := by
  have main : ∀ (m : Nat) (l : List Bool), l.length ≤ m → ∀ x ∈ bitsToBytes l, x < 256 := by
    intro m
    induction m with
    | zero =>
      intro l hl x hx
      rw [List.eq_nil_of_length_eq_zero (Nat.le_zero.mp hl)] at hx
      simp [bitsToBytes] at hx
    | succ m ih =>
      intro l hl x hx
      rcases l with _ | ⟨b0, l⟩
      · simp [bitsToBytes] at hx
      rcases l with _ | ⟨b1, l⟩
      · rw [show bitsToBytes [b0] = [byteOfBits [b0]] from rfl, List.mem_singleton] at hx
        rw [hx]; exact byteOfBits_lt _
      rcases l with _ | ⟨b2, l⟩
      · rw [show bitsToBytes [b0, b1] = [byteOfBits [b0, b1]] from rfl,
          List.mem_singleton] at hx
        rw [hx]; exact byteOfBits_lt _
      rcases l with _ | ⟨b3, l⟩
      · rw [show bitsToBytes [b0, b1, b2] = [byteOfBits [b0, b1, b2]] from rfl,
          List.mem_singleton] at hx
        rw [hx]; exact byteOfBits_lt _
      rcases l with _ | ⟨b4, l⟩
      · rw [show bitsToBytes [b0, b1, b2, b3] = [byteOfBits [b0, b1, b2, b3]] from rfl,
          List.mem_singleton] at hx
        rw [hx]; exact byteOfBits_lt _
      rcases l with _ | ⟨b5, l⟩
      · rw [show bitsToBytes [b0, b1, b2, b3, b4] =
          [byteOfBits [b0, b1, b2, b3, b4]] from rfl, List.mem_singleton] at hx
        rw [hx]; exact byteOfBits_lt _
      rcases l with _ | ⟨b6, l⟩
      · rw [show bitsToBytes [b0, b1, b2, b3, b4, b5] =
          [byteOfBits [b0, b1, b2, b3, b4, b5]] from rfl, List.mem_singleton] at hx
        rw [hx]; exact byteOfBits_lt _
      rcases l with _ | ⟨b7, rest⟩
      · rw [show bitsToBytes [b0, b1, b2, b3, b4, b5, b6] =
          [byteOfBits [b0, b1, b2, b3, b4, b5, b6]] from rfl, List.mem_singleton] at hx
        rw [hx]; exact byteOfBits_lt _
      rw [show bitsToBytes (b0 :: b1 :: b2 :: b3 :: b4 :: b5 :: b6 :: b7 :: rest) =
        byteOfBits [b0, b1, b2, b3, b4, b5, b6, b7] :: bitsToBytes rest from rfl,
        List.mem_cons] at hx
      rcases hx with hx | hx
      · rw [hx]; exact byteOfBits_lt _
      · exact ih rest (by simp at hl; omega) x hx
  exact main bits.length bits (Nat.le_refl _)

theorem be32_lt (n : Nat) : ∀ x ∈ be32 n, x < 256 := by
  intro x hx
  simp only [be32, List.mem_cons, List.not_mem_nil, or_false] at hx
  rcases hx with rfl | rfl | rfl | rfl <;> omega

theorem zlib_compress_lt (B : List Nat) : ∀ x ∈ zlib_compress B, x < 256 := by
  intro x hx
  unfold zlib_compress at hx
  simp only [List.mem_cons, List.mem_append] at hx
  rcases hx with rfl | rfl | h | h
  · omega
  · omega
  · exact bitsToBytes_lt _ x h
  · exact be32_lt _ x h

/-- zlib decompression inverts the modelled zlib compression. -/
theorem zlib_decompress_compress (B : List Nat) (hB : ∀ b ∈ B, b < 256) :
    zlib_decompress (zlib_compress B) = some B := by
  obtain ⟨k, hk⟩ := bytesToBits_bitsToBytes (deflateBits B)
  unfold zlib_compress
  set body := bitsToBytes (deflateBits B) with hbody
  set tr := be32 (adler32 B) with htr
  simp only [zlib_decompress]
  have hlen4 : tr.length = 4 := rfl
  have hlen : (body ++ tr).length = body.length + 4 := by
    rw [List.length_append, hlen4]
  rw [if_neg (by omega)]
  rw [show (body ++ tr).length - 4 = body.length from by omega]
  rw [take_append_of_length body tr body.length rfl,
    drop_append_of_length body tr body.length rfl]
  rw [hk]
  simp only [deflateBits, List.cons_append]
  simp only [inflate]
  rw [List.append_assoc]
  have hfuel : B.length <
      (B.flatMap litCode ++ (List.replicate 7 false ++ List.replicate k false)).length + 1 := by
    have := flatMap_litCode_length B
    simp only [List.length_append, List.length_replicate]
    omega
  rw [decodeSyms_litCode B (List.replicate k false) _ hB hfuel]
  simp only []
  rw [if_pos trivial]

/-- Flattening the chunks in index order gives back the text. -/
theorem ceilChunks_flatten (c : Nat) (hc : 0 < c) (text : List Char) :
    (ceilChunks text c).flatten = text := by
  have main : ∀ (m : Nat) (t : List Char), t.length ≤ m → (ceilChunks t c).flatten = t := by
    intro m
    induction m with
    | zero =>
      intro t ht
      rw [List.eq_nil_of_length_eq_zero (Nat.le_zero.mp ht), ceilChunks_nil c hc]
      rfl
    | succ m ih =>
      intro t ht
      by_cases h0 : t = []
      · rw [h0, ceilChunks_nil c hc]; rfl
      · rw [ceilChunks_cons t c hc h0, List.flatten_cons,
          ih (t.drop c) (by rw [List.length_drop]; have := List.length_pos.mpr h0; omega),
          List.take_append_drop]
  exact main text.length text (Nat.le_refl _)

/-! ## send_file_to_firestore in closed form -/

/-- With a positive chunk size, send_file_to_firestore succeeds and its
trace and return value are the ones written in the source: metadata set,
one chunk write per chunk in enumerate order, status update. -/
theorem send_eq (fn : String) (B : List Nat) (c : Nat) (hc : 0 < c) (fid : String) :
    send_file_to_firestore fn B (c : Int) fid = some
      { trace := Event.metaSet fid
            (metaFields fn (ceilChunks (compress_and_encode B) c).length)
          :: ((ceilChunks (compress_and_encode B) c).enum.map (chunkEvent fid)
              ++ [Event.metaUpdate fid [("status", FieldVal.vStr "uploaded")]]),
        ret := (fid, (ceilChunks (compress_and_encode B) c).length) } := by
  unfold send_file_to_firestore
  rw [chunk_text_pos _ c hc]
  rfl

theorem statusValues_send (fn : String) (B : List Nat) (c : Nat) (hc : 0 < c)
    (fid : String) (res : SendResult)
    (h : send_file_to_firestore fn B (c : Int) fid = some res) :
    statusValues res.trace = [FieldVal.vStr "uploading", FieldVal.vStr "uploaded"] := by
  rw [send_eq fn B c hc fid] at h
  rw [← Option.some.inj h]
  rw [statusValues_cons, statusValues_append, statusValues_chunkEvents]
  rfl

theorem chunkIds_send (fn : String) (B : List Nat) (c : Nat) (hc : 0 < c)
    (fid : String) (res : SendResult)
    (h : send_file_to_firestore fn B (c : Int) fid = some res) :
    chunkIds res.trace = (List.range res.ret.2).map Nat.repr := by
  rw [send_eq fn B c hc fid] at h
  rw [← Option.some.inj h]
  show chunkIds (Event.metaSet _ _ ::
    ((ceilChunks (compress_and_encode B) c).enum.map (chunkEvent fid) ++ [_])) =
    (List.range (ceilChunks (compress_and_encode B) c).length).map Nat.repr
  unfold chunkIds
  rw [List.flatMap_cons, List.flatMap_append]
  show [] ++ (chunkIds ((ceilChunks (compress_and_encode B) c).enum.map (chunkEvent fid))
    ++ []) = _
  rw [chunkIds_map, List.nil_append, List.append_nil]
  rw [show (fun p : Nat × List Char => Nat.repr p.1) = (Nat.repr ∘ Prod.fst) from rfl,
    ← List.map_map, List.enum_map_fst]

theorem eventStatus_metaSet (fid fn : String) (n : Nat) :
    eventStatus (Event.metaSet fid (metaFields fn n)) = [FieldVal.vStr "uploading"] := rfl

theorem metaKeyLists_send (fn : String) (B : List Nat) (c : Nat) (hc : 0 < c)
    (fid : String) (res : SendResult)
    (h : send_file_to_firestore fn B (c : Int) fid = some res) :
    metaKeyLists res.trace = [["file_name", "total_chunks", "status"]] := by
  rw [send_eq fn B c hc fid] at h
  rw [← Option.some.inj h]
  show metaKeyLists (Event.metaSet _ _ ::
    ((ceilChunks (compress_and_encode B) c).enum.map (chunkEvent fid) ++ [_])) = _
  unfold metaKeyLists
  rw [List.flatMap_cons, List.flatMap_append]
  show [["file_name", "total_chunks", "status"]] ++
    (metaKeyLists ((ceilChunks (compress_and_encode B) c).enum.map (chunkEvent fid))
      ++ []) = _
  rw [metaKeyLists_chunkEvents]
  rfl

theorem metaTotalValues_send (fn : String) (B : List Nat) (c : Nat) (hc : 0 < c)
    (fid : String) (res : SendResult)
    (h : send_file_to_firestore fn B (c : Int) fid = some res) :
    metaTotalValues res.trace = [FieldVal.vNat res.ret.2] := by
  rw [send_eq fn B c hc fid] at h
  rw [← Option.some.inj h]
  show metaTotalValues (Event.metaSet _ _ ::
    ((ceilChunks (compress_and_encode B) c).enum.map (chunkEvent fid) ++ [_])) = _
  unfold metaTotalValues
  rw [List.flatMap_cons, List.flatMap_append]
  show [FieldVal.vNat (ceilChunks (compress_and_encode B) c).length] ++
    (metaTotalValues ((ceilChunks (compress_and_encode B) c).enum.map (chunkEvent fid))
      ++ []) = _
  rw [metaTotalValues_chunkEvents]
  rfl

theorem chunkKeyLists_send (fn : String) (B : List Nat) (c : Nat) (hc : 0 < c)
    (fid : String) (res : SendResult)
    (h : send_file_to_firestore fn B (c : Int) fid = some res) :
    chunkKeyLists res.trace = List.replicate res.ret.2 ["data"] := by
  rw [send_eq fn B c hc fid] at h
  rw [← Option.some.inj h]
  show chunkKeyLists (Event.metaSet _ _ ::
    ((ceilChunks (compress_and_encode B) c).enum.map (chunkEvent fid) ++ [_])) = _
  unfold chunkKeyLists
  rw [List.flatMap_cons, List.flatMap_append]
  show [] ++ (chunkKeyLists ((ceilChunks (compress_and_encode B) c).enum.map (chunkEvent fid))
    ++ []) = _
  rw [chunkKeyLists_map, List.nil_append, List.append_nil, List.enum_length]

/-- The encoded text is never empty: the zlib stream has at least the two
header bytes and the four trailer bytes, and base64 expands non-empty
input. -/
theorem compress_and_encode_pos (B : List Nat) :
    0 < (compress_and_encode B).length := by
  unfold compress_and_encode
  rw [b64encode_length]
  have hz : (zlib_compress B).length = 6 + (bitsToBytes (deflateBits B)).length := by
    unfold zlib_compress
    rw [List.length_cons, List.length_cons, List.length_append,
      show (be32 (adler32 B)).length = 4 from rfl]
    omega
  omega

/-! ## The claims -/

/-- C1: for every byte string B (including the empty one), chunking the
encoded text of B at any positive chunk size, concatenating the chunks in
index order, base64-decoding the concatenation and zlib-decompressing the
result yields exactly B. -/
theorem C1_roundtrip (B : List Nat) (cs : Int)
    (hB : ∀ b ∈ B, b < 256) (hcs : 0 < cs) :
    ∃ chunks, chunk_text (compress_and_encode B) cs = some chunks ∧
      (b64decode chunks.flatten).bind zlib_decompress = some B := by
  obtain ⟨c, rfl⟩ : ∃ c : Nat, cs = (c : Int) := ⟨cs.toNat, by omega⟩
  have hc : 0 < c := by omega
  refine ⟨ceilChunks (compress_and_encode B) c, chunk_text_pos _ c hc, ?_⟩
  rw [ceilChunks_flatten c hc]
  unfold compress_and_encode
  rw [b64decode_encode _ (zlib_compress_lt B)]
  rw [Option.some_bind]
  exact zlib_decompress_compress B hB

/-- C1 witness at B = [104, 105] and chunk size 5. -/
theorem C1_roundtrip_witness :
    (∀ b ∈ ([104, 105] : List Nat), b < 256) ∧ (0 : Int) < 5 ∧
    (∃ chunks, chunk_text (compress_and_encode [104, 105]) 5 = some chunks ∧
      (b64decode chunks.flatten).bind zlib_decompress = some [104, 105]) :=
  ⟨by decide, by decide, C1_roundtrip [104, 105] 5 (by decide) (by decide)⟩

/-- C2: chunk_text on the encoded text of B with positive chunk size c
returns exactly ceil(length / c) chunks; every chunk but possibly the last
has length exactly c, and the last is no longer than c. -/
theorem C2_chunk_count (B : List Nat) (c : Nat) (hc : 0 < c) :
    ∃ chunks, chunk_text (compress_and_encode B) (c : Int) = some chunks ∧
      chunks.length = ((compress_and_encode B).length + c - 1) / c ∧
      (∀ i, i + 1 < chunks.length →
        ∀ hi : i < chunks.length, (chunks.get ⟨i, hi⟩).length = c) ∧
      (∀ i, ∀ hi : i < chunks.length, (chunks.get ⟨i, hi⟩).length ≤ c) := by
  refine ⟨ceilChunks (compress_and_encode B) c, chunk_text_pos _ c hc,
    ceilChunks_length _ c, ?_, ?_⟩
  · intro i hi1 hi
    rw [ceilChunks_get, List.length_take, List.length_drop]
    rw [ceilChunks_length] at hi1
    have h1 : (i + 1) * c < (compress_and_encode B).length :=
      lt_of_lt_ceilDiv _ c (i + 1) hc hi1
    rw [Nat.add_mul, Nat.one_mul] at h1
    generalize i * c = p at h1 ⊢
    omega
  · intro i hi
    rw [ceilChunks_get, List.length_take]
    omega

/-- C2 witness at B = [104, 105] and chunk size 5: the encoded text has 16
characters, so there are 4 chunks of lengths 5, 5, 5, 1. -/
theorem C2_chunk_count_witness :
    (0 : Nat) < 5 ∧
    (∃ chunks, chunk_text (compress_and_encode [104, 105]) ((5 : Nat) : Int) = some chunks ∧
      chunks.length = ((compress_and_encode [104, 105]).length + 5 - 1) / 5 ∧
      (∀ i, i + 1 < chunks.length →
        ∀ hi : i < chunks.length, (chunks.get ⟨i, hi⟩).length = 5) ∧
      (∀ i, ∀ hi : i < chunks.length, (chunks.get ⟨i, hi⟩).length ≤ 5)) :=
  ⟨by decide, C2_chunk_count [104, 105] 5 (by decide)⟩

/-- C3: the metadata document is set with status uploading before any chunk
write, and the single status update to uploaded comes after all chunk
writes: the trace is exactly metadata set, then only chunk writes, then the
update. -/
theorem C3_lifecycle (fn : String) (B : List Nat) (c : Nat) (hc : 0 < c) (fid : String) :
    ∃ res mid, send_file_to_firestore fn B (c : Int) fid = some res ∧
      res.trace = Event.metaSet fid (metaFields fn res.ret.2)
        :: (mid ++ [Event.metaUpdate fid [("status", FieldVal.vStr "uploaded")]]) ∧
      ("status", FieldVal.vStr "uploading") ∈ metaFields fn res.ret.2 ∧
      (∀ e ∈ mid, isChunkSet e = true) := by
  refine ⟨_, (ceilChunks (compress_and_encode B) c).enum.map (chunkEvent fid),
    send_eq fn B c hc fid, rfl, by simp [metaFields], ?_⟩
  intro e he
  rw [List.mem_map] at he
  obtain ⟨p, _, rfl⟩ := he
  rfl

/-- C3 witness at fn = a, B = [0], chunk size 200000, fid = i. -/
theorem C3_lifecycle_witness :
    (0 : Nat) < 200000 ∧
    (∃ res mid, send_file_to_firestore "a" [0] ((200000 : Nat) : Int) "i" = some res ∧
      res.trace = Event.metaSet "i" (metaFields "a" res.ret.2)
        :: (mid ++ [Event.metaUpdate "i" [("status", FieldVal.vStr "uploaded")]]) ∧
      ("status", FieldVal.vStr "uploading") ∈ metaFields "a" res.ret.2 ∧
      (∀ e ∈ mid, isChunkSet e = true)) :=
  ⟨by decide, C3_lifecycle "a" [0] 200000 (by decide) "i"⟩

/-- C4: when the chunk write of index f raises, the issued writes are the
metadata set and the earlier chunk writes only, so no status update happens
and the last status written is uploading; and no execution, failing or
successful, ever writes the status failed. -/
theorem C4_partial_failure (fn : String) (B : List Nat) (c : Nat) (hc : 0 < c)
    (fid : String) (f : Nat)
    (hf : f < (ceilChunks (compress_and_encode B) c).length) :
    ∃ tr res, sendFailTrace fn B (c : Int) fid f = some tr ∧
      send_file_to_firestore fn B (c : Int) fid = some res ∧
      (∀ e ∈ tr, isMetaUpdate e = false) ∧
      statusValues tr = [FieldVal.vStr "uploading"] ∧
      FieldVal.vStr "failed" ∉ statusValues tr ∧
      FieldVal.vStr "failed" ∉ statusValues res.trace := by
  refine ⟨Event.metaSet fid (metaFields fn (ceilChunks (compress_and_encode B) c).length)
      :: (((ceilChunks (compress_and_encode B) c).take f).enum.map (chunkEvent fid)),
    _, ?_, send_eq fn B c hc fid, ?_, ?_, ?_, ?_⟩
  · unfold sendFailTrace
    rw [chunk_text_pos _ c hc, Option.some_bind, if_pos hf]
  · intro e he
    rw [List.mem_cons] at he
    rcases he with rfl | he
    · rfl
    · rw [List.mem_map] at he
      obtain ⟨p, _, rfl⟩ := he
      rfl
  · rw [statusValues_cons, statusValues_chunkEvents, eventStatus_metaSet]
    rfl
  · rw [statusValues_cons, statusValues_chunkEvents, eventStatus_metaSet]
    decide
  · rw [statusValues_send fn B c hc fid _ (send_eq fn B c hc fid)]
    decide

/-- C4 witness: failing chunk write index 0 with B = [0]. -/
theorem C4_partial_failure_witness :
    (0 : Nat) < 200000 ∧
    (0 : Nat) < (ceilChunks (compress_and_encode [0]) 200000).length ∧
    (∃ tr res, sendFailTrace "a" [0] ((200000 : Nat) : Int) "i" 0 = some tr ∧
      send_file_to_firestore "a" [0] ((200000 : Nat) : Int) "i" = some res ∧
      (∀ e ∈ tr, isMetaUpdate e = false) ∧
      statusValues tr = [FieldVal.vStr "uploading"] ∧
      FieldVal.vStr "failed" ∉ statusValues tr ∧
      FieldVal.vStr "failed" ∉ statusValues res.trace) :=
  ⟨by decide, by decide, C4_partial_failure "a" [0] 200000 (by decide) "i" 0 (by decide)⟩

/-- C5 as stated fails on the code: the metadata document written by
send_file_to_firestore carries exactly the keys file_name, total_chunks and
status, and in particular no sha256, size_bytes or uploaded_at field. -/
theorem C5_cex :
    (send_file_to_firestore "a" [0] ((200000 : Nat) : Int) "i").map
        (fun r => metaKeyLists r.trace) =
      some [["file_name", "total_chunks", "status"]] ∧
    "sha256" ∉ ["file_name", "total_chunks", "status"] ∧
    "size_bytes" ∉ ["file_name", "total_chunks", "status"] ∧
    "uploaded_at" ∉ ["file_name", "total_chunks", "status"] := by
  decide

/-- C5 amended: the manifest stores exactly file_name, total_chunks and
status (initially uploading, flipped to uploaded at the end); the
total_chunks value equals the returned chunk count; no checksum, byte size
or timestamp field is written, and file_id is the document key, not a
field. -/
theorem C5_manifest (fn : String) (B : List Nat) (c : Nat) (hc : 0 < c) (fid : String) :
    ∃ res, send_file_to_firestore fn B (c : Int) fid = some res ∧
      metaKeyLists res.trace = [["file_name", "total_chunks", "status"]] ∧
      metaTotalValues res.trace = [FieldVal.vNat res.ret.2] ∧
      statusValues res.trace = [FieldVal.vStr "uploading", FieldVal.vStr "uploaded"] :=
  ⟨_, send_eq fn B c hc fid,
    metaKeyLists_send fn B c hc fid _ (send_eq fn B c hc fid),
    metaTotalValues_send fn B c hc fid _ (send_eq fn B c hc fid),
    statusValues_send fn B c hc fid _ (send_eq fn B c hc fid)⟩

/-- C5 amended witness. -/
theorem C5_manifest_witness :
    (0 : Nat) < 200000 ∧
    (∃ res, send_file_to_firestore "a" [0] ((200000 : Nat) : Int) "i" = some res ∧
      metaKeyLists res.trace = [["file_name", "total_chunks", "status"]] ∧
      metaTotalValues res.trace = [FieldVal.vNat res.ret.2] ∧
      statusValues res.trace = [FieldVal.vStr "uploading", FieldVal.vStr "uploaded"]) :=
  ⟨by decide, C5_manifest "a" [0] 200000 (by decide) "i"⟩

/-- C6 as stated fails on the code: every chunk document written by
send_file_to_firestore carries exactly the single key data, and in
particular no denormalized file name or total chunk count. -/
theorem C6_cex :
    (send_file_to_firestore "a" [0] ((200000 : Nat) : Int) "i").map
        (fun r => chunkKeyLists r.trace) = some [["data"]] ∧
    "file_name" ∉ ["data"] ∧
    "total_chunks" ∉ ["data"] := by
  decide

/-- C6 amended: every chunk record written by send_file_to_firestore
carries exactly one field, the chunk payload under the key data; no
denormalized file name or total chunk count is stored with the chunks. -/
theorem C6_chunk_records (fn : String) (B : List Nat) (c : Nat) (hc : 0 < c) (fid : String) :
    ∃ res, send_file_to_firestore fn B (c : Int) fid = some res ∧
      chunkKeyLists res.trace = List.replicate res.ret.2 ["data"] :=
  ⟨_, send_eq fn B c hc fid,
    chunkKeyLists_send fn B c hc fid _ (send_eq fn B c hc fid)⟩

/-- C6 amended witness. -/
theorem C6_chunk_records_witness :
    (0 : Nat) < 200000 ∧
    (∃ res, send_file_to_firestore "a" [0] ((200000 : Nat) : Int) "i" = some res ∧
      chunkKeyLists res.trace = List.replicate res.ret.2 ["data"]) :=
  ⟨by decide, C6_chunk_records "a" [0] 200000 (by decide) "i"⟩

/-- C7 as stated fails on the code: the empty byte string compresses and
encodes to the 12-character text eNoDAAAAAAE= (zlib of empty input is the
non-empty 8-byte stream 78 da 03 00 00 00 00 01), so the pipeline produces
1 chunk, issues 1 chunk write, and records total_chunks = 1, not 0. -/
theorem C7_cex :
    compress_and_encode [] = "eNoDAAAAAAE=".toList ∧
    (send_file_to_firestore "a" [] ((200000 : Nat) : Int) "i").map
        (fun r => (r.ret.2, (chunkIds r.trace).length,
          metaTotalValues r.trace)) =
      some (1, 1, [FieldVal.vNat 1]) ∧
    (1 : Nat) ≠ 0 := by
  decide

/-- C7 amended: for the empty byte string the pipeline produces exactly one
chunk (the 12-character encoding of the compressed empty input), issues
exactly one chunk write with document id 0, and the manifest records
total_chunks = 1, for every chunk size of at least 12 (the form enforces a
minimum of 50000). -/
theorem C7_empty_input (fn fid : String) (c : Nat) (hc : 12 ≤ c) :
    ∃ res, send_file_to_firestore fn [] (c : Int) fid = some res ∧
      res.ret.2 = 1 ∧ chunkIds res.trace = ["0"] := by
  have hc0 : 0 < c := by omega
  have htot : (ceilChunks (compress_and_encode []) c).length = 1 := by
    rw [ceilChunks_length, show (compress_and_encode []).length = 12 from rfl]
    rw [show 12 + c - 1 = 11 + c from by omega, Nat.add_div_right _ hc0,
      Nat.div_eq_of_lt (by omega)]
  refine ⟨_, send_eq fn [] c hc0 fid, htot, ?_⟩
  rw [chunkIds_send fn [] c hc0 fid _ (send_eq fn [] c hc0 fid)]
  show (List.range (ceilChunks (compress_and_encode []) c).length).map Nat.repr = _
  rw [htot]
  rfl

/-- C7 amended witness. -/
theorem C7_empty_input_witness :
    (12 : Nat) ≤ 200000 ∧
    (∃ res, send_file_to_firestore "a" [] ((200000 : Nat) : Int) "i" = some res ∧
      res.ret.2 = 1 ∧ chunkIds res.trace = ["0"]) :=
  ⟨by decide, C7_empty_input "a" "i" 200000 (by decide)⟩

/-- C8 as stated fails on the code: B = [0] is non-empty and shorter than
the chunk size 2, yet the pipeline yields 6 chunks, because the one byte
compresses to 9 bytes and encodes to 12 characters. -/
theorem C8_cex :
    ([0] : List Nat) ≠ [] ∧ ([0] : List Nat).length < 2 ∧
    (chunk_text (compress_and_encode [0]) 2).map List.length = some 6 ∧
    (6 : Nat) ≠ 1 := by
  decide

/-- C8 amended: for every B and positive chunk size c the pipeline yields
exactly one chunk precisely when the encoded text (which is never empty) is
at most c characters long; a short input need not satisfy this, since
compression overhead plus base64 expansion can exceed c. -/
theorem C8_small_input (B : List Nat) (c : Nat) (hc : 0 < c) :
    ∃ chunks, chunk_text (compress_and_encode B) (c : Int) = some chunks ∧
      (chunks.length = 1 ↔ (compress_and_encode B).length ≤ c) := by
  refine ⟨_, chunk_text_pos _ c hc, ?_⟩
  rw [ceilChunks_length]
  have hpos : 0 < (compress_and_encode B).length := compress_and_encode_pos B
  have hdm := Nat.div_add_mod ((compress_and_encode B).length + c - 1) c
  have hml := Nat.mod_lt ((compress_and_encode B).length + c - 1) hc
  constructor
  · intro h1
    rw [h1] at hdm
    omega
  · intro hle
    rw [show (compress_and_encode B).length + c - 1 =
      ((compress_and_encode B).length - 1) + c from by omega,
      Nat.add_div_right _ hc, Nat.div_eq_of_lt (by omega)]

/-- C8 amended witness at B = [0], c = 200000 (one chunk) and the iff is
exercised in both directions by the instantiation. -/
theorem C8_small_input_witness :
    (0 : Nat) < 200000 ∧
    (∃ chunks, chunk_text (compress_and_encode [0]) ((200000 : Nat) : Int) = some chunks ∧
      (chunks.length = 1 ↔ (compress_and_encode [0]).length ≤ 200000)) :=
  ⟨by decide, C8_small_input [0] 200000 (by decide)⟩

/-- C9: a successful call returns (file_id, total_chunks) where the first
component is the generated document id, the total_chunks metadata field
holds exactly the returned count, and the chunk document ids are exactly
the decimal strings of 0..total_chunks-1, so their number equals the
returned count. -/
theorem C9_consistency (fn : String) (B : List Nat) (c : Nat) (hc : 0 < c) (fid : String) :
    ∃ res, send_file_to_firestore fn B (c : Int) fid = some res ∧
      res.ret = (fid, res.ret.2) ∧
      metaTotalValues res.trace = [FieldVal.vNat res.ret.2] ∧
      chunkIds res.trace = (List.range res.ret.2).map Nat.repr ∧
      (chunkIds res.trace).length = res.ret.2 := by
  refine ⟨_, send_eq fn B c hc fid, rfl,
    metaTotalValues_send fn B c hc fid _ (send_eq fn B c hc fid),
    chunkIds_send fn B c hc fid _ (send_eq fn B c hc fid), ?_⟩
  rw [chunkIds_send fn B c hc fid _ (send_eq fn B c hc fid),
    List.length_map, List.length_range]

/-- C9 witness. -/
theorem C9_consistency_witness :
    (0 : Nat) < 200000 ∧
    (∃ res, send_file_to_firestore "a" [0] ((200000 : Nat) : Int) "i" = some res ∧
      res.ret = ("i", res.ret.2) ∧
      metaTotalValues res.trace = [FieldVal.vNat res.ret.2] ∧
      chunkIds res.trace = (List.range res.ret.2).map Nat.repr ∧
      (chunkIds res.trace).length = res.ret.2) :=
  ⟨by decide, C9_consistency "a" [0] 200000 (by decide) "i"⟩

/-- C10: chunk_text raises on chunk size 0 (zero step in range), returns
the empty chunk list for every negative chunk size even on non-empty text,
and returns normally for every positive chunk size. -/
theorem C10_chunk_size (t : List Char) :
    chunk_text t 0 = none ∧
    (∀ cs : Int, cs < 0 → chunk_text t cs = some []) ∧
    (∀ cs : Int, 0 < cs → ∃ l, chunk_text t cs = some l) := by
  refine ⟨chunk_text_zero t, fun cs h => chunk_text_neg t cs h, fun cs h => ?_⟩
  obtain ⟨c, rfl⟩ : ∃ c : Nat, cs = (c : Int) := ⟨cs.toNat, by omega⟩
  exact ⟨_, chunk_text_pos t c (by omega)⟩

/-- C10 witness on the non-empty text abcdefg. -/
theorem C10_chunk_size_witness :
    chunk_text "abcdefg".toList 0 = none ∧
    chunk_text "abcdefg".toList (-3) = some [] ∧
    (∃ l, chunk_text "abcdefg".toList 3 = some l) :=
  ⟨(C10_chunk_size "abcdefg".toList).1,
   (C10_chunk_size "abcdefg".toList).2.1 (-3) (by decide),
   (C10_chunk_size "abcdefg".toList).2.2 3 (by decide)⟩

end FileShare
